import Mathlib

/-!
# Verification of the i3 alternating-layout helper

Shallow embedding of `src/main.rs`: the `I3Split` orientation enum with its
`FromStr` parser, the `PREVIOUS_SPLIT` last-orientation store, the
`find_focused_parent` tree search, the `set_layout` tree-driven decision,
the `handle_keybind` keybinding-driven decision and the `print_status`
status emitter.  Stateful code is modelled by explicit state passing: each
operation receives the current store value and returns the new store value,
the list of lines printed to standard output, the list of commands issued
to the window manager, and an `Option Unit` mirroring the Rust function's
early-return (`?`) result.
-/

/-- The `I3Split` enum of `main.rs` (five split states). -/
inductive I3Split where
  | Vertical
  | Horizontal
  | Tabbed
  | Stacked
  | Toggle
deriving DecidableEq, Repr

/-- The `I3SplitParseError` unit struct of `main.rs`. -/
inductive I3SplitParseError where
  | mk
deriving DecidableEq, Repr

/-- Parser `I3Split::from_str` of `main.rs`: the match on the token string,
rendered as the equivalent chain of string-equality tests. -/
def fromStr (s : String) : Except I3SplitParseError I3Split :=
  if s = "v" ∨ s = "vertical" then .ok .Vertical
  else if s = "h" ∨ s = "horizontal" then .ok .Horizontal
  else if s = "tabbed" then .ok .Tabbed
  else if s = "stacked" ∨ s = "stacking" then .ok .Stacked
  else if s = "t" ∨ s = "toggle" then .ok .Toggle
  else .error .mk

/-- The layout kinds of `i3ipc::reply::NodeLayout` used by `main.rs`. -/
inductive NodeLayout where
  | SplitH
  | SplitV
  | Stacked
  | Tabbed
  | DockArea
  | Output
deriving DecidableEq, Repr

/-- The geometry rectangle `(x, y, width, height)` of an i3 tree node
(`node.rect` is a 4-tuple of `i32` in `i3ipc`). -/
structure Rect where
  x : Int
  y : Int
  w : Int
  h : Int
deriving DecidableEq, Repr

/-- An i3 container-tree node (`i3ipc::reply::Node`), restricted to the
fields `main.rs` reads: children, focused flag, layout, rectangle. -/
inductive Node where
  | mk (nodes : List Node) (focused : Bool) (layout : NodeLayout) (rect : Rect)

/-- Child list of a node. -/
def Node.nodes : Node → List Node
  | .mk ns _ _ _ => ns

/-- Focused flag of a node. -/
def Node.focused : Node → Bool
  | .mk _ f _ _ => f

/-- Layout of a node. -/
def Node.layout : Node → NodeLayout
  | .mk _ _ l _ => l

/-- Rectangle of a node. -/
def Node.rect : Node → Rect
  | .mk _ _ _ r => r

/-- Test `node.nodes.iter().any(|n| n.focused)`: some direct child is focused. -/
def hasFocusedChild (n : Node) : Bool :=
  n.nodes.any (fun c => c.focused)

mutual
/-- Search `find_focused_parent` of `main.rs` (the inner fn of `set_layout`):
if some direct child is focused, this node is the answer; otherwise
`find_map` the search over the children in order. -/
def find_focused_parent : Node → Option Node
  | .mk ns f l r =>
    if hasFocusedChild (.mk ns f l r) then
      some (.mk ns f l r)
    else
      findFocusedParentList ns

/-- Loop `node.nodes.iter().find_map(find_focused_parent)`: first non-`none`
result over the children, left to right. -/
def findFocusedParentList : List Node → Option Node
  | [] => none
  | n :: ns =>
    match find_focused_parent n with
    | some p => some p
    | none => findFocusedParentList ns
end

mutual
/-- Preorder listing of all nodes of a tree (the node itself first, then
the subtrees of its children, left to right). -/
def allNodes : Node → List Node
  | .mk ns f l r => Node.mk ns f l r :: allNodesList ns

/-- Preorder listing concatenated over a list of trees. -/
def allNodesList : List Node → List Node
  | [] => []
  | n :: ns => allNodes n ++ allNodesList ns
end

mutual
/-- Number of focused nodes in a tree (all positions counted). -/
def focusedCount : Node → Nat
  | .mk ns f _ _ => (if f then 1 else 0) + focusedCountList ns

/-- Number of focused nodes summed over a list of trees. -/
def focusedCountList : List Node → Nat
  | [] => 0
  | n :: ns => focusedCount n + focusedCountList ns
end

/-- Result of one call to the status emitter: the new value of the
`PREVIOUS_SPLIT` store and the lines printed to standard output. -/
structure EmitResult where
  store : I3Split
  lines : List String
deriving DecidableEq, Repr

/-- Rank used only to justify termination of `print_status` (the `Toggle`
arm re-invokes the emitter once with a non-`Toggle` argument). -/
def statusRank : I3Split → Nat
  | .Toggle => 1
  | _ => 0

/-- Emitter `print_status` of `main.rs`.  `Tabbed`/`Stacked` print `t`/`s` and do
not touch the store; `Vertical`/`Horizontal` write the store and print
their glyph line (`" ↓"` has a leading space in the source); `Toggle`
re-invokes the emitter with the orientation opposite the stored one, and
prints nothing if the store holds neither binary value. -/
def print_status (split : I3Split) (prev : I3Split) : EmitResult :=
  match split with
  | .Tabbed => ⟨prev, ["t"]⟩
  | .Stacked => ⟨prev, ["s"]⟩
  | .Vertical => ⟨.Vertical, [" ↓"]⟩
  | .Horizontal => ⟨.Horizontal, ["→"]⟩
  | .Toggle =>
    if prev = .Vertical then print_status .Horizontal prev
    else if prev = .Horizontal then print_status .Vertical prev
    else ⟨prev, []⟩
termination_by statusRank split
decreasing_by all_goals simp [statusRank]

/-- The initial value of the `PREVIOUS_SPLIT` store
(`RefCell::new(I3Split::Horizontal)`). -/
def initialPreviousSplit : I3Split := I3Split.Horizontal

/-- Result of one handler invocation (`set_layout` / `handle_keybind`):
new store value, lines printed to standard output, command strings issued
to the window manager via `run_command`, and the handler's `Option<()>`
return value (`none` = early abort through `?`). -/
structure HandlerResult where
  store : I3Split
  lines : List String
  cmds : List String
  ret : Option Unit
deriving DecidableEq, Repr

/-- Handler `set_layout` of `main.rs`.  The i3 connection is modelled by the
fetched tree (`tree = none` means `get_tree()` failed) and by `cmdOk`,
which tells whether a given `run_command` call succeeds.  A command is
recorded in `cmds` when `run_command` is called, whether or not it
succeeds; a failing call aborts the handler (`.ok?`) before any status
is emitted. -/
def set_layout (tree : Option Node) (cmdOk : String → Bool)
    (prev : I3Split) : HandlerResult :=
  match tree with
  | none => ⟨prev, [], [], none⟩
  | some t =>
    match find_focused_parent t with
    | some parent =>
      match parent.layout with
      | .Tabbed =>
        let e := print_status .Tabbed prev
        ⟨e.store, e.lines, [], some ()⟩
      | .Stacked =>
        let e := print_status .Stacked prev
        ⟨e.store, e.lines, [], some ()⟩
      | _ =>
        if parent.rect.w > parent.rect.h then
          if cmdOk "split horizontal" then
            let e := print_status .Horizontal prev
            ⟨e.store, e.lines, ["split horizontal"], some ()⟩
          else ⟨prev, [], ["split horizontal"], none⟩
        else
          if cmdOk "split vertical" then
            let e := print_status .Vertical prev
            ⟨e.store, e.lines, ["split vertical"], some ()⟩
          else ⟨prev, [], ["split vertical"], none⟩
    | none => ⟨prev, [""], [], some ()⟩

/-- Rust `str::split(' ')` over the character list: every space is a
separator and empty pieces are kept, so the result is always non-empty
(the empty string yields `[[]]`, i.e. one empty piece). -/
def splitChars : List Char → List (List Char)
  | [] => [[]]
  | c :: cs =>
    match splitChars cs with
    | [] => [[c]]
    | p :: ps => if c = ' ' then [] :: p :: ps else (c :: p) :: ps

/-- Rust `e.binding.command.split(' ')` as a list of token strings. -/
def splitOnSpaces (s : String) : List String :=
  (splitChars s.toList).map (fun p => String.mk p)

/-- Rust `str::starts_with(pat)`: the pattern's characters are a prefix
of the string's characters. -/
def startsWith (s pat : String) : Bool :=
  pat.toList.isPrefixOf s.toList

/-- Handler `handle_keybind` of `main.rs`.  The binding's command string is split
on single spaces (Rust `split(' ')`, modelled by `splitOnSpaces`); the
first token is dispatched exactly as in the source. -/
def handle_keybind (cmd : String) (tree : Option Node)
    (cmdOk : String → Bool) (prev : I3Split) : HandlerResult :=
  match splitOnSpaces cmd with
  | [] => ⟨prev, [], [], none⟩
  | first :: rest =>
    if first = "split" then
      match rest with
      | [] => ⟨prev, [], [], none⟩
      | tok :: _ =>
        match fromStr tok with
        | .ok s =>
          let e := print_status s prev
          ⟨e.store, e.lines, [], some ()⟩
        | .error _ => ⟨prev, [], [], none⟩
    else if first = "move" ∨ first = "focus" ∨ first = "workspace" then
      set_layout tree cmdOk prev
    else if first = "layout" then
      match rest with
      | [] => ⟨prev, [], [], none⟩
      | command :: _ =>
        let split : Option String :=
          if startsWith command "split" then
            (command.toList.getLast?).map (fun c => c.toString)
          else some command
        match split with
        | none => ⟨prev, [], [], none⟩
        | some s =>
          match fromStr s with
          | .ok sp =>
            let e := print_status sp prev
            ⟨e.store, e.lines, [], some ()⟩
          | .error _ => ⟨prev, [], [], none⟩
    else ⟨prev, [], [], some ()⟩

/-! ## Lemmas about the tree search -/

mutual
/-- Search result: `find_focused_parent` is the first node, in preorder, with a focused
direct child. -/
theorem ffp_eq_find : ∀ t : Node,
    find_focused_parent t = (allNodes t).find? hasFocusedChild
  | .mk ns f l r => by
    rw [find_focused_parent, allNodes]
    cases h : hasFocusedChild (Node.mk ns f l r) with
    | true => simp [h]
    | false => simp [h, ffpl_eq_find ns]

/-- List version of `ffp_eq_find`. -/
theorem ffpl_eq_find : ∀ ns : List Node,
    findFocusedParentList ns = (allNodesList ns).find? hasFocusedChild
  | [] => rfl
  | n :: ns => by
    rw [findFocusedParentList, allNodesList, List.find?_append, ffp_eq_find n,
      ffpl_eq_find ns]
    cases (allNodes n).find? hasFocusedChild <;> rfl
end

/-- A member of a forest contributes its focused count to the forest's. -/
theorem focusedCount_le_of_mem :
    ∀ (ns : List Node) (c : Node), c ∈ ns → focusedCount c ≤ focusedCountList ns
  | n :: rest, c, hc => by
    rw [focusedCountList]
    rcases List.mem_cons.mp hc with h | h
    · rw [h]; omega
    · have := focusedCount_le_of_mem rest c h
      omega

/-- A focused node counts at least itself. -/
theorem one_le_focusedCount_of_focused (c : Node) (h : c.focused = true) :
    1 ≤ focusedCount c := by
  cases c with
  | mk ns f l r =>
    rw [focusedCount]
    simp only [Node.focused] at h
    simp [h]

/-- The children's count is part of the node's count. -/
theorem focusedCountList_nodes_le (n : Node) :
    focusedCountList n.nodes ≤ focusedCount n := by
  cases n with
  | mk ns f l r => rw [focusedCount]; simp only [Node.nodes]; omega

/-- Every node of a forest's preorder listing lies in some tree of it. -/
theorem mem_allNodesList_exists :
    ∀ (ns : List Node) (q : Node), q ∈ allNodesList ns → ∃ n ∈ ns, q ∈ allNodes n
  | n :: rest, q, hq => by
    rw [allNodesList] at hq
    rcases List.mem_append.mp hq with h | h
    · exact ⟨n, List.mem_cons_self n rest, h⟩
    · obtain ⟨m, hm, hqm⟩ := mem_allNodesList_exists rest q h
      exact ⟨m, List.mem_cons_of_mem n hm, hqm⟩

/-- A node with a focused direct child has at least one focused node
strictly below itself. -/
theorem hasFocusedChild_one_le (t : Node) (h : hasFocusedChild t = true) :
    1 ≤ focusedCountList t.nodes := by
  simp only [hasFocusedChild, List.any_eq_true] at h
  obtain ⟨c, hc, hcf⟩ := h
  have h1 := one_le_focusedCount_of_focused c hcf
  have h2 := focusedCount_le_of_mem t.nodes c hc
  omega

mutual
/-- A node of `t`'s subtree with a focused direct child forces a focused
node strictly below `t`'s root. -/
theorem deep_one_le_tree :
    ∀ (t : Node) (q : Node), q ∈ allNodes t → hasFocusedChild q = true →
      1 ≤ focusedCountList t.nodes
  | .mk ns f l r, q, hq, hfc => by
    rw [allNodes] at hq
    rcases List.mem_cons.mp hq with h | h
    · subst h
      exact hasFocusedChild_one_le _ hfc
    · have := deep_one_le_list ns q h hfc
      simpa [Node.nodes] using this

/-- Forest version of `deep_one_le_tree`. -/
theorem deep_one_le_list :
    ∀ (ns : List Node) (q : Node), q ∈ allNodesList ns → hasFocusedChild q = true →
      1 ≤ focusedCountList ns
  | [], q, hq, _ => by rw [allNodesList] at hq; cases hq
  | n :: rest, q, hq, hfc => by
    rw [allNodesList] at hq
    rw [focusedCountList]
    rcases List.mem_append.mp hq with h | h
    · have h1 := deep_one_le_tree n q h hfc
      have h2 := focusedCountList_nodes_le n
      omega
    · have := deep_one_le_list rest q h hfc
      omega
end

/-- A focused root of one tree of a forest together with a focused node
strictly below some root forces two focused nodes in the forest. -/
theorem two_le_of_root_and_deep :
    ∀ (ns : List Node) (c n : Node), c ∈ ns → c.focused = true → n ∈ ns →
      1 ≤ focusedCountList n.nodes → 2 ≤ focusedCountList ns
  | m :: rest, c, n, hc, hcf, hn, hdeep => by
    rw [focusedCountList]
    rcases List.mem_cons.mp hc with h1 | h1 <;> rcases List.mem_cons.mp hn with h2 | h2
    · subst h1
      rw [h2] at hdeep
      cases c with
      | mk ns f l r =>
        rw [focusedCount]
        simp only [Node.focused] at hcf
        simp only [Node.nodes] at hdeep
        simp [hcf]
        omega
    · subst h1
      have h3 := one_le_focusedCount_of_focused c hcf
      have h4 := focusedCount_le_of_mem rest n h2
      have h5 := focusedCountList_nodes_le n
      omega
    · subst h2
      have h3 := one_le_focusedCount_of_focused c hcf
      have h4 := focusedCount_le_of_mem rest c h1
      have h5 := focusedCountList_nodes_le n
      omega
    · have := two_le_of_root_and_deep rest c n h1 hcf h2 hdeep
      omega

mutual
/-- In a tree with at most one focused node, two nodes that both have a
focused direct child are equal. -/
theorem unique_match_tree :
    ∀ (t : Node) (q q' : Node), q ∈ allNodes t → q' ∈ allNodes t →
      hasFocusedChild q = true → hasFocusedChild q' = true →
      focusedCount t ≤ 1 → q = q'
  | .mk ns f l r, q, q', hq, hq', hfq, hfq', hcount => by
    rw [allNodes] at hq hq'
    have hns : focusedCountList ns ≤ 1 := by
      rw [focusedCount] at hcount; omega
    rcases List.mem_cons.mp hq with h | h <;> rcases List.mem_cons.mp hq' with h' | h'
    · rw [h, h']
    · exfalso
      subst h
      simp only [hasFocusedChild, Node.nodes, List.any_eq_true] at hfq
      obtain ⟨c, hc, hcf⟩ := hfq
      obtain ⟨n, hn, hq'n⟩ := mem_allNodesList_exists ns q' h'
      have hd := deep_one_le_tree n q' hq'n hfq'
      have := two_le_of_root_and_deep ns c n hc hcf hn hd
      omega
    · exfalso
      subst h'
      simp only [hasFocusedChild, Node.nodes, List.any_eq_true] at hfq'
      obtain ⟨c, hc, hcf⟩ := hfq'
      obtain ⟨n, hn, hqn⟩ := mem_allNodesList_exists ns q h
      have hd := deep_one_le_tree n q hqn hfq
      have := two_le_of_root_and_deep ns c n hc hcf hn hd
      omega
    · exact unique_match_list ns q q' h h' hfq hfq' hns

/-- Forest version of `unique_match_tree`. -/
theorem unique_match_list :
    ∀ (ns : List Node) (q q' : Node), q ∈ allNodesList ns → q' ∈ allNodesList ns →
      hasFocusedChild q = true → hasFocusedChild q' = true →
      focusedCountList ns ≤ 1 → q = q'
  | [], q, q', hq, _, _, _, _ => by rw [allNodesList] at hq; cases hq
  | n :: rest, q, q', hq, hq', hfq, hfq', hcount => by
    rw [allNodesList] at hq hq'
    rw [focusedCountList] at hcount
    rcases List.mem_append.mp hq with h | h <;> rcases List.mem_append.mp hq' with h' | h'
    · exact unique_match_tree n q q' h h' hfq hfq' (by omega)
    · exfalso
      have h1 := deep_one_le_tree n q h hfq
      have h2 := focusedCountList_nodes_le n
      have h3 := deep_one_le_list rest q' h' hfq'
      omega
    · exfalso
      have h1 := deep_one_le_tree n q' h' hfq'
      have h2 := focusedCountList_nodes_le n
      have h3 := deep_one_le_list rest q h hfq
      omega
    · exact unique_match_list rest q q' h h' hfq hfq' (by omega)
end

/-! ## Store lemmas -/

/-- One emitter call leaves the store unchanged or writes a binary value. -/
theorem print_status_store_cases (s prev : I3Split) :
    (print_status s prev).store = prev ∨
    (print_status s prev).store = I3Split.Vertical ∨
    (print_status s prev).store = I3Split.Horizontal := by
  cases s <;> cases prev <;> simp [print_status]

/-- One tree-driven decision leaves the store unchanged or writes a
binary value. -/
theorem set_layout_store_cases (tree : Option Node) (cmdOk : String → Bool)
    (prev : I3Split) :
    (set_layout tree cmdOk prev).store = prev ∨
    (set_layout tree cmdOk prev).store = I3Split.Vertical ∨
    (set_layout tree cmdOk prev).store = I3Split.Horizontal := by
  cases tree with
  | none => simp [set_layout]
  | some t =>
    simp only [set_layout]
    cases hf : find_focused_parent t with
    | none => simp
    | some parent =>
      simp only []
      cases hl : parent.layout
      case Tabbed => exact print_status_store_cases _ prev
      case Stacked => exact print_status_store_cases _ prev
      all_goals simp only []
      all_goals split
      all_goals split
      all_goals first
        | exact print_status_store_cases _ prev
        | simp

/-- One keybinding-driven decision leaves the store unchanged or writes a
binary value. -/
theorem handle_keybind_store_cases (cmd : String) (tree : Option Node)
    (cmdOk : String → Bool) (prev : I3Split) :
    (handle_keybind cmd tree cmdOk prev).store = prev ∨
    (handle_keybind cmd tree cmdOk prev).store = I3Split.Vertical ∨
    (handle_keybind cmd tree cmdOk prev).store = I3Split.Horizontal := by
  simp only [handle_keybind]
  cases hsp : splitOnSpaces cmd with
  | nil => simp
  | cons first rest =>
    by_cases h1 : first = "split"
    · simp only [h1, if_pos]
      cases rest with
      | nil => simp
      | cons tok _ =>
        simp only []
        cases hfs : fromStr tok with
        | ok s => simp only [hfs]; exact print_status_store_cases s prev
        | error e => simp [hfs]
    · by_cases h2 : first = "move" ∨ first = "focus" ∨ first = "workspace"
      · simp only [if_neg h1, if_pos h2]
        exact set_layout_store_cases tree cmdOk prev
      · by_cases h3 : first = "layout"
        · simp only [if_neg h1, if_neg h2, h3, if_pos]
          cases rest with
          | nil => simp
          | cons command _ =>
            simp only []
            by_cases h4 : startsWith command "split"
            · simp only [if_pos h4]
              cases hlast : command.toList.getLast? with
              | none => simp [hlast]
              | some c =>
                try simp only [hlast]
                try simp only [Option.map_some]
                try simp only [Option.map]
                cases hfs : fromStr c.toString with
                | ok s => simp only [hfs]; exact print_status_store_cases s prev
                | error e => simp [hfs]
            · simp only [if_neg h4]
              cases hfs : fromStr command with
              | ok s => simp only [hfs]; exact print_status_store_cases s prev
              | error e => simp [hfs]
        · simp [if_neg h1, if_neg h2, if_neg h3]

/-! ## Claim theorems -/

/-- C1: In a snapshot with exactly one focused node in which some node
has a focused direct child, `find_focused_parent` is the depth-first
preorder traversal stopping at the first node with a focused direct child
(`List.find?` over the preorder listing), and the returned node is the
unique node of the tree with a focused direct child — the innermost
ancestor of the focus, never a more distant one. -/
theorem find_focused_parent_innermost_preorder (t : Node)
    (hwf : focusedCount t = 1)
    (hex : (allNodes t).any hasFocusedChild = true) :
    find_focused_parent t = (allNodes t).find? hasFocusedChild ∧
    ∃ p, find_focused_parent t = some p ∧ p ∈ allNodes t ∧
      hasFocusedChild p = true ∧
      ∀ q ∈ allNodes t, hasFocusedChild q = true → q = p := by
  refine ⟨ffp_eq_find t, ?_⟩
  have hsome : ((allNodes t).find? hasFocusedChild).isSome := by
    rw [List.find?_isSome]
    simpa using hex
  obtain ⟨p, hp⟩ := Option.isSome_iff_exists.mp hsome
  refine ⟨p, by rw [ffp_eq_find t, hp], List.mem_of_find?_eq_some hp,
    List.find?_some hp, ?_⟩
  intro q hq hfq
  exact unique_match_tree t q p hq (List.mem_of_find?_eq_some hp) hfq
    (List.find?_some hp) (le_of_eq hwf)

/-- Concrete two-level tree used by the C1 witness: a root whose single
child is focused. -/
def c1Tree : Node :=
  Node.mk [Node.mk [] true NodeLayout.SplitH ⟨0, 0, 10, 10⟩] false
    NodeLayout.SplitH ⟨0, 0, 20, 20⟩

/-- Witness for C1 at `c1Tree`. -/
theorem find_focused_parent_innermost_preorder_witness :
    find_focused_parent c1Tree = (allNodes c1Tree).find? hasFocusedChild ∧
    ∃ p, find_focused_parent c1Tree = some p ∧ p ∈ allNodes c1Tree ∧
      hasFocusedChild p = true ∧
      ∀ q ∈ allNodes c1Tree, hasFocusedChild q = true → q = p :=
  find_focused_parent_innermost_preorder c1Tree rfl rfl

/-- C2: The last-orientation store starts at `Horizontal`, and every
operation — the emitter itself, the tree-driven decision and the
keybinding-driven decision, all of whose writes go through
`print_status` — maps a binary store value to a binary store value, so
the store always holds `Vertical` or `Horizontal`, never
`Tabbed`/`Stacked`/`Toggle`. -/
theorem previous_split_store_binary_invariant :
    initialPreviousSplit = I3Split.Horizontal ∧
    (∀ s prev, (prev = I3Split.Vertical ∨ prev = I3Split.Horizontal) →
      ((print_status s prev).store = I3Split.Vertical ∨
       (print_status s prev).store = I3Split.Horizontal)) ∧
    (∀ tree cmdOk prev, (prev = I3Split.Vertical ∨ prev = I3Split.Horizontal) →
      ((set_layout tree cmdOk prev).store = I3Split.Vertical ∨
       (set_layout tree cmdOk prev).store = I3Split.Horizontal)) ∧
    (∀ cmd tree cmdOk prev, (prev = I3Split.Vertical ∨ prev = I3Split.Horizontal) →
      ((handle_keybind cmd tree cmdOk prev).store = I3Split.Vertical ∨
       (handle_keybind cmd tree cmdOk prev).store = I3Split.Horizontal)) := by
  refine ⟨rfl, ?_, ?_, ?_⟩
  · intro s prev h
    rcases print_status_store_cases s prev with h1 | h1 | h1 <;> rw [h1] <;> tauto
  · intro tree cmdOk prev h
    rcases set_layout_store_cases tree cmdOk prev with h1 | h1 | h1 <;> rw [h1] <;> tauto
  · intro cmd tree cmdOk prev h
    rcases handle_keybind_store_cases cmd tree cmdOk prev with h1 | h1 | h1 <;>
      rw [h1] <;> tauto

/-- Witness for C2: the emitter, the tree-driven decision and the
keybinding-driven decision each keep the store binary at a concrete
binary input. -/
theorem previous_split_store_binary_invariant_witness :
    ((print_status I3Split.Toggle I3Split.Horizontal).store = I3Split.Vertical ∨
     (print_status I3Split.Toggle I3Split.Horizontal).store = I3Split.Horizontal) ∧
    ((set_layout none (fun _ => true) I3Split.Vertical).store = I3Split.Vertical ∨
     (set_layout none (fun _ => true) I3Split.Vertical).store = I3Split.Horizontal) ∧
    ((handle_keybind "split v" none (fun _ => true) I3Split.Horizontal).store = I3Split.Vertical ∨
     (handle_keybind "split v" none (fun _ => true) I3Split.Horizontal).store = I3Split.Horizontal) :=
  ⟨previous_split_store_binary_invariant.2.1 I3Split.Toggle I3Split.Horizontal (Or.inr rfl),
   previous_split_store_binary_invariant.2.2.1 none (fun _ => true) I3Split.Vertical (Or.inl rfl),
   previous_split_store_binary_invariant.2.2.2 "split v" none (fun _ => true) I3Split.Horizontal (Or.inr rfl)⟩

/-- Reduction of `set_layout` in the non-`Tabbed`/`Stacked` branch: once a
parent is found whose layout is neither tabbed nor stacked, the result is
decided by the rectangle comparison and the command outcome. -/
theorem set_layout_default_branch (t : Node) (cmdOk : String → Bool)
    (prev : I3Split) (parent : Node)
    (hp : find_focused_parent t = some parent)
    (h1 : parent.layout ≠ NodeLayout.Tabbed)
    (h2 : parent.layout ≠ NodeLayout.Stacked) :
    set_layout (some t) cmdOk prev =
      if parent.rect.w > parent.rect.h then
        if cmdOk "split horizontal" then
          ⟨(print_status I3Split.Horizontal prev).store,
            (print_status I3Split.Horizontal prev).lines,
            ["split horizontal"], some ()⟩
        else ⟨prev, [], ["split horizontal"], none⟩
      else
        if cmdOk "split vertical" then
          ⟨(print_status I3Split.Vertical prev).store,
            (print_status I3Split.Vertical prev).lines,
            ["split vertical"], some ()⟩
        else ⟨prev, [], ["split vertical"], none⟩ := by
  simp only [set_layout, hp]

/-- C3: When the focused parent's layout is neither `Tabbed` nor
`Stacked`, a square rectangle (width = height) falls into the
vertical-split branch: `"split vertical"` is the issued command, and on
command success the `Vertical` status is emitted; the horizontal command
is issued only under strict width > height. -/
theorem set_layout_tie_break_vertical (t : Node) (cmdOk : String → Bool)
    (prev : I3Split) (parent : Node)
    (hp : find_focused_parent t = some parent)
    (h1 : parent.layout ≠ NodeLayout.Tabbed)
    (h2 : parent.layout ≠ NodeLayout.Stacked) :
    (parent.rect.w = parent.rect.h →
      (set_layout (some t) cmdOk prev).cmds = ["split vertical"] ∧
      (cmdOk "split vertical" = true →
        set_layout (some t) cmdOk prev =
          ⟨I3Split.Vertical, [" ↓"], ["split vertical"], some ()⟩)) ∧
    ((set_layout (some t) cmdOk prev).cmds = ["split horizontal"] →
      parent.rect.w > parent.rect.h) := by
  rw [set_layout_default_branch t cmdOk prev parent hp h1 h2]
  constructor
  · intro hw
    have hnot : ¬ parent.rect.w > parent.rect.h := by omega
    rw [if_neg hnot]
    constructor
    · cases hc : cmdOk "split vertical" <;> simp
    · intro hc
      rw [if_pos hc]
      simp [print_status]
  · intro hcmds
    by_cases hgt : parent.rect.w > parent.rect.h
    · exact hgt
    · exfalso
      rw [if_neg hgt] at hcmds
      cases hc : cmdOk "split vertical" <;> rw [hc] at hcmds <;> simp at hcmds

/-- Concrete tree for the C3 witness: its root is its own focused parent
and has a square rectangle. -/
def c3Tree : Node :=
  Node.mk [Node.mk [] true NodeLayout.SplitH ⟨0, 0, 10, 10⟩] false
    NodeLayout.SplitH ⟨0, 0, 50, 50⟩

/-- Witness for C3 at `c3Tree` with an always-succeeding command channel. -/
theorem set_layout_tie_break_vertical_witness :
    (c3Tree.rect.w = c3Tree.rect.h →
      (set_layout (some c3Tree) (fun _ => true) I3Split.Horizontal).cmds = ["split vertical"] ∧
      ((fun _ => true) "split vertical" = true →
        set_layout (some c3Tree) (fun _ => true) I3Split.Horizontal =
          ⟨I3Split.Vertical, [" ↓"], ["split vertical"], some ()⟩)) ∧
    ((set_layout (some c3Tree) (fun _ => true) I3Split.Horizontal).cmds = ["split horizontal"] →
      c3Tree.rect.w > c3Tree.rect.h) :=
  set_layout_tie_break_vertical c3Tree (fun _ => true) I3Split.Horizontal c3Tree
    rfl (by decide) (by decide)

/-- C4: Emitting `Toggle` twice starting from a `Horizontal` store
first emits the down glyph and stores `Vertical`, then emits the right
glyph and stores `Horizontal` again — exactly one output line per call. -/
theorem toggle_twice_from_horizontal :
    print_status I3Split.Toggle I3Split.Horizontal =
      ⟨I3Split.Vertical, [" ↓"]⟩ ∧
    print_status I3Split.Toggle
        (print_status I3Split.Toggle I3Split.Horizontal).store =
      ⟨I3Split.Horizontal, ["→"]⟩ := by
  constructor <;> simp [print_status]

/-- C5: `from_str` maps exactly `"v"`/`"vertical"`, `"h"`/`"horizontal"`,
`"tabbed"`, `"stacked"`/`"stacking"`, `"t"`/`"toggle"` to their variants and
fails with a parse error on every other string. -/
theorem from_str_token_mapping (s : String) :
    (fromStr s = .ok .Vertical ↔ (s = "v" ∨ s = "vertical")) ∧
    (fromStr s = .ok .Horizontal ↔ (s = "h" ∨ s = "horizontal")) ∧
    (fromStr s = .ok .Tabbed ↔ s = "tabbed") ∧
    (fromStr s = .ok .Stacked ↔ (s = "stacked" ∨ s = "stacking")) ∧
    (fromStr s = .ok .Toggle ↔ (s = "t" ∨ s = "toggle")) ∧
    (fromStr s = .error .mk ↔
      s ∉ (["v", "vertical", "h", "horizontal", "tabbed", "stacked",
            "stacking", "t", "toggle"] : List String)) := by
  unfold fromStr
  split_ifs with h1 h2 h3 h4 h5
  · rcases h1 with h | h <;> subst h <;> simp
  · rcases h2 with h | h <;> subst h <;> simp
  · subst h3; simp
  · rcases h4 with h | h <;> subst h <;> simp
  · rcases h5 with h | h <;> subst h <;> simp
  · rw [not_or] at h1 h2 h4 h5
    obtain ⟨h1a, h1b⟩ := h1
    obtain ⟨h2a, h2b⟩ := h2
    obtain ⟨h4a, h4b⟩ := h4
    obtain ⟨h5a, h5b⟩ := h5
    simp [h1a, h1b, h2a, h2b, h3, h4a, h4b, h5a, h5b]

/-- Witness for C5: the unmapped token `"splith"` is rejected. -/
theorem from_str_token_mapping_witness :
    fromStr "splith" = .error .mk :=
  (from_str_token_mapping "splith").2.2.2.2.2.mpr (by decide)

/-- C6: When the focused parent's layout is `Tabbed` or `Stacked`, the
tree-driven decision issues no command and leaves the store unchanged; its
only effect is the mirroring status line (`"t"` or `"s"`). -/
theorem set_layout_tabbed_stacked_mirror_only (t : Node) (cmdOk : String → Bool)
    (prev : I3Split) (parent : Node)
    (hp : find_focused_parent t = some parent) :
    (parent.layout = NodeLayout.Tabbed →
      set_layout (some t) cmdOk prev = ⟨prev, ["t"], [], some ()⟩) ∧
    (parent.layout = NodeLayout.Stacked →
      set_layout (some t) cmdOk prev = ⟨prev, ["s"], [], some ()⟩) := by
  constructor <;> intro hl <;> simp [set_layout, hp, hl, print_status]

/-- Concrete tree for the C6 witness: the root is the focused parent and is
tabbed. -/
def c6Tree : Node :=
  Node.mk [Node.mk [] true NodeLayout.SplitH ⟨0, 0, 10, 10⟩] false
    NodeLayout.Tabbed ⟨0, 0, 100, 50⟩

/-- Witness for C6 at `c6Tree`. -/
theorem set_layout_tabbed_stacked_mirror_only_witness :
    set_layout (some c6Tree) (fun _ => true) I3Split.Vertical =
      ⟨I3Split.Vertical, ["t"], [], some ()⟩ :=
  (set_layout_tabbed_stacked_mirror_only c6Tree (fun _ => true) I3Split.Vertical
    c6Tree rfl).1 rfl

/-- C7: For a `"layout"` command whose second token starts with
`"split"`, only that token's final character is used as the orientation
token: two such commands whose second tokens share a final character are
handled identically, and `"layout splith"` in particular emits the
right-pointing status line, stores `Horizontal`, and issues no manager
command. -/
theorem handle_keybind_layout_split_last_char :
    (∀ tree cmdOk prev,
      handle_keybind "layout splith" tree cmdOk prev =
        ⟨I3Split.Horizontal, ["→"], [], some ()⟩) ∧
    (∀ cmd cmd' tok tok' tree cmdOk prev,
      splitOnSpaces cmd = ["layout", tok] →
      splitOnSpaces cmd' = ["layout", tok'] →
      startsWith tok "split" = true →
      startsWith tok' "split" = true →
      tok.toList.getLast? = tok'.toList.getLast? →
      handle_keybind cmd tree cmdOk prev = handle_keybind cmd' tree cmdOk prev) := by
  constructor
  · intro tree cmdOk prev
    have e1 : splitOnSpaces "layout splith" = ["layout", "splith"] := rfl
    have e2 : startsWith "splith" "split" = true := rfl
    have e3 : "splith".toList.getLast? = some 'h' := rfl
    have e4 : ('h').toString = "h" := rfl
    have e5 : fromStr "h" = Except.ok I3Split.Horizontal := rfl
    simp [handle_keybind, e1, e2, e3, e4, e5, print_status]
  · intro cmd cmd' tok tok' tree cmdOk prev hcmd hcmd' hsw hsw' hlast
    simp only [handle_keybind, hcmd, hcmd', hsw, hsw', hlast]
    simp

/-- Witness for C7: `"layout splith"` and `"layout splitxyzh"` share the
final character and are handled identically. -/
theorem handle_keybind_layout_split_last_char_witness :
    handle_keybind "layout splith" none (fun _ => true) I3Split.Vertical =
        ⟨I3Split.Horizontal, ["→"], [], some ()⟩ ∧
    handle_keybind "layout splith" none (fun _ => true) I3Split.Vertical =
      handle_keybind "layout splitxyzh" none (fun _ => true) I3Split.Vertical :=
  ⟨handle_keybind_layout_split_last_char.1 none (fun _ => true) I3Split.Vertical,
   handle_keybind_layout_split_last_char.2 "layout splith" "layout splitxyzh"
     "splith" "splitxyzh" none (fun _ => true) I3Split.Vertical rfl rfl rfl rfl rfl⟩

/-- C8: If the split command issued by the tree-driven decision fails,
the decision is abandoned silently: no status line is printed, the store
is unchanged, and the handler aborts (the command is issued before the
status emission). -/
theorem set_layout_command_failure_silent (t : Node) (cmdOk : String → Bool)
    (prev : I3Split) (parent : Node)
    (hp : find_focused_parent t = some parent)
    (h1 : parent.layout ≠ NodeLayout.Tabbed)
    (h2 : parent.layout ≠ NodeLayout.Stacked) :
    (parent.rect.w > parent.rect.h → cmdOk "split horizontal" = false →
      set_layout (some t) cmdOk prev = ⟨prev, [], ["split horizontal"], none⟩) ∧
    (¬ parent.rect.w > parent.rect.h → cmdOk "split vertical" = false →
      set_layout (some t) cmdOk prev = ⟨prev, [], ["split vertical"], none⟩) := by
  rw [set_layout_default_branch t cmdOk prev parent hp h1 h2]
  constructor
  · intro hgt hfail
    rw [if_pos hgt, hfail]
    simp
  · intro hng hfail
    rw [if_neg hng, hfail]
    simp

/-- Concrete tree for the C8 witness: the root is the focused parent, is a
plain split container, and is wider than tall. -/
def c8Tree : Node :=
  Node.mk [Node.mk [] true NodeLayout.SplitH ⟨0, 0, 10, 10⟩] false
    NodeLayout.SplitH ⟨0, 0, 200, 100⟩

/-- Witness for C8 at `c8Tree` with an always-failing command channel. -/
theorem set_layout_command_failure_silent_witness :
    set_layout (some c8Tree) (fun _ => false) I3Split.Vertical =
      ⟨I3Split.Vertical, [], ["split horizontal"], none⟩ :=
  (set_layout_command_failure_silent c8Tree (fun _ => false) I3Split.Vertical
    c8Tree rfl (by decide) (by decide)).1 (by decide) rfl

/-- The five status lines the program can ever print: the tabbed token,
the stacked token, the down-glyph line (with its leading space, as in the
source), the right-glyph line, and the empty line. -/
def statusLineVocab : List String := ["t", "s", " ↓", "→", ""]

/-- Every line the emitter prints is in the status vocabulary. -/
theorem print_status_lines_vocab (s prev : I3Split) :
    ∀ line ∈ (print_status s prev).lines, line ∈ statusLineVocab := by
  cases s <;> cases prev <;> simp [print_status, statusLineVocab]

/-- The lines of one tree-driven decision are empty, the blank line, or
those of one emitter call. -/
theorem set_layout_lines_cases (tree : Option Node) (cmdOk : String → Bool)
    (prev : I3Split) :
    (set_layout tree cmdOk prev).lines = [] ∨
    (set_layout tree cmdOk prev).lines = [""] ∨
    ∃ s, (set_layout tree cmdOk prev).lines = (print_status s prev).lines := by
  cases tree with
  | none => simp [set_layout]
  | some t =>
    simp only [set_layout]
    cases hf : find_focused_parent t with
    | none => simp
    | some parent =>
      simp only []
      cases hl : parent.layout
      case Tabbed => exact Or.inr (Or.inr ⟨I3Split.Tabbed, rfl⟩)
      case Stacked => exact Or.inr (Or.inr ⟨I3Split.Stacked, rfl⟩)
      all_goals simp only []
      all_goals split
      all_goals split
      all_goals first
        | exact Or.inr (Or.inr ⟨I3Split.Horizontal, rfl⟩)
        | exact Or.inr (Or.inr ⟨I3Split.Vertical, rfl⟩)
        | simp

/-- The lines of one keybinding-driven decision are empty, those of one
tree-driven decision, or those of one emitter call. -/
theorem handle_keybind_lines_cases (cmd : String) (tree : Option Node)
    (cmdOk : String → Bool) (prev : I3Split) :
    (handle_keybind cmd tree cmdOk prev).lines = [] ∨
    (handle_keybind cmd tree cmdOk prev).lines = (set_layout tree cmdOk prev).lines ∨
    ∃ s, (handle_keybind cmd tree cmdOk prev).lines = (print_status s prev).lines := by
  simp only [handle_keybind]
  cases hsp : splitOnSpaces cmd with
  | nil => simp
  | cons first rest =>
    by_cases h1 : first = "split"
    · simp only [h1, if_pos]
      cases rest with
      | nil => simp
      | cons tok _ =>
        simp only []
        cases hfs : fromStr tok with
        | ok s => simp only [hfs]; exact Or.inr (Or.inr ⟨s, rfl⟩)
        | error e => simp [hfs]
    · by_cases h2 : first = "move" ∨ first = "focus" ∨ first = "workspace"
      · simp only [if_neg h1, if_pos h2]
        exact Or.inr (Or.inl trivial)
      · by_cases h3 : first = "layout"
        · simp only [if_neg h1, if_neg h2, h3, if_pos]
          cases rest with
          | nil => simp
          | cons command _ =>
            simp only []
            by_cases h4 : startsWith command "split"
            · simp only [if_pos h4]
              cases hlast : command.toList.getLast? with
              | none => simp [hlast]
              | some c =>
                try simp only [hlast]
                try simp only [Option.map_some]
                try simp only [Option.map]
                cases hfs : fromStr c.toString with
                | ok s => simp only [hfs]; exact Or.inr (Or.inr ⟨s, rfl⟩)
                | error e => simp [hfs]
            · simp only [if_neg h4]
              cases hfs : fromStr command with
              | ok s => simp only [hfs]; exact Or.inr (Or.inr ⟨s, rfl⟩)
              | error e => simp [hfs]
        · simp [if_neg h1, if_neg h2, if_neg h3]

/-- C9: Every line any operation prints — by the emitter, the
tree-driven decision or the keybinding-driven decision — is one of the
five status lines: `"t"`, `"s"`, the down-glyph line, the right-glyph
line, or the empty line. -/
theorem output_lines_closed_vocabulary :
    (∀ s prev line, line ∈ (print_status s prev).lines → line ∈ statusLineVocab) ∧
    (∀ tree cmdOk prev line,
      line ∈ (set_layout tree cmdOk prev).lines → line ∈ statusLineVocab) ∧
    (∀ cmd tree cmdOk prev line,
      line ∈ (handle_keybind cmd tree cmdOk prev).lines → line ∈ statusLineVocab) := by
  refine ⟨fun s prev => print_status_lines_vocab s prev, ?_, ?_⟩
  · intro tree cmdOk prev line h
    rcases set_layout_lines_cases tree cmdOk prev with h1 | h1 | ⟨s, h1⟩ <;> rw [h1] at h
    · cases h
    · simp at h
      simp [h, statusLineVocab]
    · exact print_status_lines_vocab s prev line h
  · intro cmd tree cmdOk prev line h
    rcases handle_keybind_lines_cases cmd tree cmdOk prev with h1 | h1 | ⟨s, h1⟩ <;>
      rw [h1] at h
    · cases h
    · rcases set_layout_lines_cases tree cmdOk prev with h2 | h2 | ⟨s, h2⟩ <;> rw [h2] at h
      · cases h
      · simp at h
        simp [h, statusLineVocab]
      · exact print_status_lines_vocab s prev line h
    · exact print_status_lines_vocab s prev line h

/-- Witness for C9: the tabbed token printed by the emitter and the blank
line printed by the tree-driven decision are in the vocabulary. -/
theorem output_lines_closed_vocabulary_witness :
    "t" ∈ statusLineVocab ∧ "" ∈ statusLineVocab :=
  ⟨output_lines_closed_vocabulary.1 I3Split.Tabbed I3Split.Horizontal "t"
      (by simp [print_status]),
   output_lines_closed_vocabulary.2.1
      (some (Node.mk [] false NodeLayout.SplitH ⟨0, 0, 1, 1⟩)) (fun _ => true)
      I3Split.Horizontal "" (by decide)⟩

/-- C10: The command `"layout split"` (no `h`/`v` suffix) is not
rejected: its extracted final character is `"t"`, which parses to
`Toggle`, so the call emits the orientation opposite the stored one and
flips the store. -/
theorem handle_keybind_layout_split_toggle (tree : Option Node)
    (cmdOk : String → Bool) (prev : I3Split) :
    (prev = I3Split.Horizontal →
      handle_keybind "layout split" tree cmdOk prev =
        ⟨I3Split.Vertical, [" ↓"], [], some ()⟩) ∧
    (prev = I3Split.Vertical →
      handle_keybind "layout split" tree cmdOk prev =
        ⟨I3Split.Horizontal, ["→"], [], some ()⟩) := by
  have e1 : splitOnSpaces "layout split" = ["layout", "split"] := rfl
  have e2 : startsWith "split" "split" = true := rfl
  have e3 : "split".toList.getLast? = some 't' := rfl
  have e4 : ('t').toString = "t" := rfl
  have e5 : fromStr "t" = Except.ok I3Split.Toggle := rfl
  constructor <;> intro h <;> subst h <;>
    simp [handle_keybind, e1, e2, e3, e4, e5, print_status]

/-- Witness for C10 with the store at `Horizontal`. -/
theorem handle_keybind_layout_split_toggle_witness :
    handle_keybind "layout split" none (fun _ => true) I3Split.Horizontal =
      ⟨I3Split.Vertical, [" ↓"], [], some ()⟩ :=
  (handle_keybind_layout_split_toggle none (fun _ => true) I3Split.Horizontal).1 rfl
